import Mathlib

/-
Verification of the uixml widget-tree core of the adb repository: the
attribute-tree data model and geometry helper (adb/uixml/base.go), the
depth-first walker and the predicate search engine (adb/uixml/find.go),
the bounds-rectangle parser (adb/uixml/utils.go), and the convenience
wrapper Device.FindNodes (adb/operation.go).

Modelling conventions: Go (value, error) returns become pairs whose
second component is an Option error; Go slices become lists; Go machine
ints become Int with explicit truncating division (Int.tdiv); the Go
regexp search of utils.go is embedded as an explicit leftmost scan with
maximal-munch digit runs, which coincides with the regexp semantics of
the anchored pattern used there.
-/

namespace Uixml

/-- Node mirrors the Node struct of base.go: seventeen scalar string
attributes plus the bounds string, and the ordered list of children. -/
inductive Node where
  | mk (NAF Index Text ResourceID Class Package ContentDesc Checkable Checked
        Clickable Enabled Focusable Focused Scrollable LongClickable Password
        Selected Bounds : String) (Children : List Node) : Node

/-- Projection for the Children field of Node. -/
def Node.Children : Node → List Node
  | .mk _ _ _ _ _ _ _ _ _ _ _ _ _ _ _ _ _ _ cs => cs

/-- Projection for the Class field of Node. -/
def Node.Class : Node → String
  | .mk _ _ _ _ c _ _ _ _ _ _ _ _ _ _ _ _ _ _ => c

/-- Projection for the Bounds field of Node. -/
def Node.Bounds : Node → String
  | .mk _ _ _ _ _ _ _ _ _ _ _ _ _ _ _ _ _ b _ => b

/-- The Go zero value Node{}: every attribute empty, no children. -/
def Node.empty : Node :=
  Node.mk "" "" "" "" "" "" "" "" "" "" "" "" "" "" "" "" "" "" []

/-- Hierarchy of base.go: the rotation attribute and the ordered
top-level nodes.  (The XMLName field is decoder metadata and carries no
data of its own.) -/
structure Hierarchy where
  Rotation : String
  Nodes : List Node

/-- Xml of base.go embeds a Hierarchy. -/
structure Xml where
  hierarchy : Hierarchy

/-- The promoted Nodes field of the embedded Hierarchy. -/
def Xml.Nodes (x : Xml) : List Node := x.hierarchy.Nodes

mutual
/-- Walk of base.go: apply the visitor to (n, pn) first, then recurse
into the children of n left to right with n as parent.  The Go visitor
is a closure mutating enclosing state; here it threads a state σ. -/
def Walk {σ : Type} (n pn : Node) (fn : Node → Node → σ → σ) (s : σ) : σ :=
  walkList n.Children n fn (fn n pn s)
termination_by sizeOf n
decreasing_by cases n; simp [Node.Children]

/-- The child loop of Walk: visit each member of cs (with parent p) in
order, threading the state. -/
def walkList {σ : Type} (cs : List Node) (p : Node) (fn : Node → Node → σ → σ) (s : σ) : σ :=
  match cs with
  | [] => s
  | c :: rest => walkList rest p fn (Walk c p fn s)
termination_by sizeOf cs
decreasing_by all_goals (simp; try omega)
end

/-- Package-level FindAll of find.go: Walk the subtree of root and
append to out every node on which the given condition holds. -/
def FindAll (root pRoot : Node) (p : Node → Node → Bool) : List Node :=
  Walk root pRoot (fun n pn out => if p n pn then out ++ [n] else out) []

/-- Xml.FindAll of find.go: concatenate the package-level FindAll
results of every top-level node, parent Node{}. -/
def Xml.FindAll (x : Xml) (fn : Node → Node → Bool) : List Node :=
  x.Nodes.foldl (fun out node => out ++ Uixml.FindAll node Node.empty fn) []

/-- The loop body of Xml.Find of find.go: for each top-level node in
order, collect the subtree matches; if there is a first match and its
Class is non-empty return it, otherwise move on; when the loop ends,
return the zero Node and the "not found" error. -/
def Xml.findLoop (fn : Node → Node → Bool) : List Node → Node × Option String
  | [] => (Node.empty, some "not found")
  | node :: rest =>
    let nodes := Uixml.FindAll node Node.empty fn
    if 0 < nodes.length ∧ (nodes.headD Node.empty).Class ≠ "" then
      (nodes.headD Node.empty, none)
    else
      Xml.findLoop fn rest

/-- Xml.Find of find.go: run the loop over the top-level nodes. -/
def Xml.Find (x : Xml) (fn : Node → Node → Bool) : Node × Option String :=
  Xml.findLoop fn x.Nodes

/-- Device.FindNodes of operation.go, modelled after a successful
d.XML() fetch has produced the hierarchy x: an empty Xml.FindAll result
becomes the "not found" error, a non-empty one is returned as is. -/
def FindNodes (x : Xml) (fn : Node → Node → Bool) : List Node × Option String :=
  let list := Xml.FindAll x fn
  if list.length = 0 then ([], some "not found") else (list, none)

/-- Rect of utils.go: four machine integers. -/
structure Rect where
  X1 : Int
  Y1 : Int
  X2 : Int
  Y2 : Int
deriving DecidableEq

/-- The error of ParseBounds: fmt.Errorf("bad bounds format: %q", b)
carries the rejected input string. -/
inductive BoundsError where
  | MalformedBounds (original : String) : BoundsError
deriving DecidableEq

/-- Take a maximal non-empty run of decimal digits, as the regexp
fragment \d+ does when followed by a non-digit delimiter. -/
def takeDigits1 (cs : List Char) : Option (List Char × List Char) :=
  match cs.takeWhile Char.isDigit with
  | [] => none
  | ds => some (ds, cs.dropWhile Char.isDigit)

/-- Consume one expected literal character. -/
def expectChar (c : Char) : List Char → Option (List Char)
  | [] => none
  | x :: xs => if x = c then some xs else none

/-- Attempt to match the anchored pattern [\d+,\d+][\d+,\d+] at the
head of cs, returning the four digit-run capture groups. -/
def matchBoundsAt (cs : List Char) : Option (List Char × List Char × List Char × List Char) := do
  let r1 ← expectChar '[' cs
  let (d1, r2) ← takeDigits1 r1
  let r3 ← expectChar ',' r2
  let (d2, r4) ← takeDigits1 r3
  let r5 ← expectChar ']' r4
  let r6 ← expectChar '[' r5
  let (d3, r7) ← takeDigits1 r6
  let r8 ← expectChar ',' r7
  let (d4, r9) ← takeDigits1 r8
  let _ ← expectChar ']' r9
  pure (d1, d2, d3, d4)

/-- FindStringSubmatch semantics of the boundsRe regexp: try the
pattern at each start position from the left, returning the capture
groups of the leftmost successful match. -/
def findBoundsMatch : List Char → Option (List Char × List Char × List Char × List Char)
  | [] => none
  | c :: cs =>
    match matchBoundsAt (c :: cs) with
    | some g => some g
    | none => findBoundsMatch cs

/-- Numeric value of a run of decimal digit characters. -/
def digitsToNat (ds : List Char) : Nat :=
  ds.foldl (fun a c => 10 * a + (c.toNat - 48)) 0

/-- Largest value of the 64-bit machine int used by strconv.Atoi. -/
def intMax64 : Nat := 2 ^ 63 - 1

/-- strconv.Atoi applied to a non-empty all-digit capture group, with
the error discarded as utils.go does: the numeric value, saturated at
the maximum machine integer exactly as strconv.ParseInt returns it on
range overflow. -/
def atoiSat (ds : List Char) : Int :=
  Int.ofNat (min (digitsToNat ds) intMax64)

/-- ParseBounds of utils.go: find the leftmost substring matching
[\d+,\d+][\d+,\d+]; on failure return the zero Rect and a
MalformedBounds error carrying the input; on success convert the four
capture groups with Atoi, ignoring conversion errors. -/
def ParseBounds (b : String) : Rect × Option BoundsError :=
  match findBoundsMatch b.data with
  | none => (⟨0, 0, 0, 0⟩, some (BoundsError.MalformedBounds b))
  | some (d1, d2, d3, d4) =>
    (⟨atoiSat d1, atoiSat d2, atoiSat d3, atoiSat d4⟩, none)

/-- Node.Middle of base.go: parse the bounds; on error return (0, 0);
otherwise ((x2-x1)/2 + x1, (y2-y1)/2 + y1) with the truncating integer
division of Go. -/
def Node.Middle (n : Node) : Int × Int :=
  match ParseBounds n.Bounds with
  | (_, some _) => (0, 0)
  | (bounds, none) =>
    (Int.tdiv (bounds.X2 - bounds.X1) 2 + bounds.X1,
     Int.tdiv (bounds.Y2 - bounds.Y1) 2 + bounds.Y1)

/- ---------- Specification-side vocabulary ---------- -/

mutual
/-- The preorder visit sequence a depth-first left-to-right traversal
from (n, pn) is specified to produce: the start node first, paired with
its parent, then the subtrees of its children in order, each child
paired with n. -/
def visits (n pn : Node) : List (Node × Node) :=
  (n, pn) :: visitsList n.Children n
termination_by sizeOf n
decreasing_by cases n; simp [Node.Children]

/-- Concatenated preorder visit sequences of the trees in cs, each
with parent p. -/
def visitsList (cs : List Node) (p : Node) : List (Node × Node) :=
  match cs with
  | [] => []
  | c :: rest => visits c p ++ visitsList rest p
termination_by sizeOf cs
decreasing_by all_goals (simp; try omega)
end

mutual
/-- Number of nodes of the subtree rooted at n. -/
def nodeCount (n : Node) : Nat :=
  1 + nodeCountList n.Children
termination_by sizeOf n
decreasing_by cases n; simp [Node.Children]

/-- Total number of nodes of the trees in cs. -/
def nodeCountList (cs : List Node) : Nat :=
  match cs with
  | [] => 0
  | c :: rest => nodeCount c + nodeCountList rest
termination_by sizeOf cs
decreasing_by all_goals (simp; try omega)
end

/-- The acceptance rule Xml.Find applies to one top-level subtree: the
first collected match, provided its class name is non-empty. -/
def firstAcceptable (fn : Node → Node → Bool) (node : Node) : Option Node :=
  match FindAll node Node.empty fn with
  | [] => none
  | m :: _ => if m.Class ≠ "" then some m else none

/-- The behaviour the specification ascribes to FindFirst: the first
top-level subtree with an acceptable match yields that match, otherwise
the "not found" error. -/
def findSpec (fn : Node → Node → Bool) (ns : List Node) : Node × Option String :=
  match ns.findSome? (firstAcceptable fn) with
  | some m => (m, none)
  | none => (Node.empty, some "not found")

/-- A non-empty all-digit character run: what \d+ can match. -/
def IsDigitRun (ds : List Char) : Prop :=
  ds ≠ [] ∧ ∀ c ∈ ds, c.isDigit = true

/-- The exact character shape of a bounds substring with capture
groups d1, d2, d3, d4 followed by a remainder. -/
def boundsShape (d1 d2 d3 d4 rest : List Char) : List Char :=
  '[' :: (d1 ++ ',' :: (d2 ++ ']' :: '[' :: (d3 ++ ',' :: (d4 ++ ']' :: rest))))

/-- The pattern [\d+,\d+][\d+,\d+] matches cs at start position i with
capture groups d1, d2, d3, d4. -/
def BoundsMatchAt (cs : List Char) (i : Nat) (d1 d2 d3 d4 : List Char) : Prop :=
  IsDigitRun d1 ∧ IsDigitRun d2 ∧ IsDigitRun d3 ∧ IsDigitRun d4 ∧
    ∃ rest, cs.drop i = boundsShape d1 d2 d3 d4 rest

/-- Decimal digit character for a value below ten. -/
def digitChar : Nat → Char
  | 0 => '0' | 1 => '1' | 2 => '2' | 3 => '3' | 4 => '4'
  | 5 => '5' | 6 => '6' | 7 => '7' | 8 => '8' | _ => '9'

/-- Fuelled digit accumulator for decimal printing. -/
def toDecimalAux : Nat → Nat → List Char → List Char
  | 0, _, acc => acc
  | fuel + 1, n, acc =>
    if n = 0 then acc else toDecimalAux fuel (n / 10) (digitChar (n % 10) :: acc)

/-- Standard decimal rendering of a natural number. -/
def toDecimal (n : Nat) : List Char :=
  if n = 0 then ['0'] else toDecimalAux n n []

/-- The formatted bounds string [a,b][c,d] of the round-trip
property. -/
def fmtBounds (a b c d : Nat) : String :=
  String.mk (boundsShape (toDecimal a) (toDecimal b) (toDecimal c) (toDecimal d) [])

/- ---------- Concrete sample data used by witnesses ---------- -/

/-- A clickable button leaf with well-formed bounds. -/
def sampleButton : Node :=
  Node.mk "" "0" "" "" "android.widget.Button" "" "OK" "" "" "true" "" "" ""
    "" "" "" "" "[100,200][300,400]" []

/-- A leaf whose bounds string matches no bounds pattern. -/
def sampleBadBounds : Node :=
  Node.mk "" "0" "" "" "android.widget.TextView" "" "" "" "" "" "" "" ""
    "" "" "" "" "oops" []

/-- A leaf with an empty class name, the sentinel shape. -/
def sampleEmptyClass : Node :=
  Node.mk "" "0" "hello" "" "" "" "" "" "" "" "" "" "" "" "" "" "" "" []

/-- A hierarchy with the single top-level node sampleButton. -/
def sampleXml : Xml := ⟨⟨"0", [sampleButton]⟩⟩

/-- A hierarchy with no top-level nodes. -/
def emptyXml : Xml := ⟨⟨"0", []⟩⟩

/-- A hierarchy whose only node has an empty class name. -/
def sentinelXml : Xml := ⟨⟨"0", [sampleEmptyClass]⟩⟩

/-- The always-true search condition. -/
def alwaysTrue : Node → Node → Bool := fun _ _ => true

/- ---------- Traversal lemmas ---------- -/

theorem node_sizeOf_children (n : Node) : sizeOf n.Children < sizeOf n := by
  cases n; simp [Node.Children]

theorem walk_visits_aux (k : Nat) :
    (∀ (n : Node), sizeOf n ≤ k → ∀ (pn : Node) (σ : Type)
        (fn : Node → Node → σ → σ) (s : σ),
        Walk n pn fn s = (visits n pn).foldl (fun a q => fn q.1 q.2 a) s) ∧
    (∀ (cs : List Node), sizeOf cs ≤ k → ∀ (p : Node) (σ : Type)
        (fn : Node → Node → σ → σ) (s : σ),
        walkList cs p fn s = (visitsList cs p).foldl (fun a q => fn q.1 q.2 a) s) := by
  induction k with
  | zero =>
    constructor
    · intro n hn
      exfalso; cases n; simp at hn
    · intro cs hcs
      exfalso; cases cs <;> simp at hcs
  | succ k ih =>
    constructor
    · intro n hn pn σ fn s
      rw [Walk, visits, List.foldl_cons]
      exact ih.2 n.Children (by have := node_sizeOf_children n; omega) n σ fn (fn n pn s)
    · intro cs hcs p σ fn s
      cases cs with
      | nil => rw [walkList, visitsList]; rfl
      | cons c rest =>
        have hc : sizeOf c ≤ k := by simp at hcs; omega
        have hrest : sizeOf rest ≤ k := by simp at hcs; omega
        rw [walkList, visitsList, List.foldl_append,
          ih.1 c hc p σ fn s, ih.2 rest hrest p σ fn _]

theorem walk_eq_foldl {σ : Type} (n pn : Node) (fn : Node → Node → σ → σ) (s : σ) :
    Walk n pn fn s = (visits n pn).foldl (fun a q => fn q.1 q.2 a) s :=
  (walk_visits_aux (sizeOf n)).1 n le_rfl pn σ fn s

theorem walkList_eq_foldl {σ : Type} (cs : List Node) (p : Node)
    (fn : Node → Node → σ → σ) (s : σ) :
    walkList cs p fn s = (visitsList cs p).foldl (fun a q => fn q.1 q.2 a) s :=
  (walk_visits_aux (sizeOf cs)).2 cs le_rfl p σ fn s

theorem visits_length_aux (k : Nat) :
    (∀ (n : Node), sizeOf n ≤ k → ∀ (pn : Node),
        (visits n pn).length = nodeCount n) ∧
    (∀ (cs : List Node), sizeOf cs ≤ k → ∀ (p : Node),
        (visitsList cs p).length = nodeCountList cs) := by
  induction k with
  | zero =>
    constructor
    · intro n hn
      exfalso; cases n; simp at hn
    · intro cs hcs
      exfalso; cases cs <;> simp at hcs
  | succ k ih =>
    constructor
    · intro n hn pn
      rw [visits, nodeCount, List.length_cons,
        ih.2 n.Children (by have := node_sizeOf_children n; omega) n]
      omega
    · intro cs hcs p
      cases cs with
      | nil => rw [visitsList, nodeCountList]; rfl
      | cons c rest =>
        have hc : sizeOf c ≤ k := by simp at hcs; omega
        have hrest : sizeOf rest ≤ k := by simp at hcs; omega
        rw [visitsList, nodeCountList, List.length_append,
          ih.1 c hc p, ih.2 rest hrest p]

theorem visits_length (n pn : Node) : (visits n pn).length = nodeCount n :=
  (visits_length_aux (sizeOf n)).1 n le_rfl pn

theorem foldl_collect (p : Node → Node → Bool) (l : List (Node × Node))
    (init : List Node) :
    l.foldl (fun out q => if p q.1 q.2 then out ++ [q.1] else out) init
      = init ++ (l.filter (fun q => p q.1 q.2)).map Prod.fst := by
  induction l generalizing init with
  | nil => simp
  | cons q rest ih =>
    by_cases h : p q.1 q.2 <;>
      simp [List.foldl_cons, List.filter_cons, h, ih]

theorem findAll_eq (root pRoot : Node) (p : Node → Node → Bool) :
    FindAll root pRoot p
      = ((visits root pRoot).filter (fun q => p q.1 q.2)).map Prod.fst := by
  rw [FindAll, walk_eq_foldl]
  simpa using foldl_collect p (visits root pRoot) []

theorem xmlFindAll_aux (fn : Node → Node → Bool) (cs : List Node) (init : List Node) :
    cs.foldl (fun out node => out ++ FindAll node Node.empty fn) init
      = init ++ ((visitsList cs Node.empty).filter (fun q => fn q.1 q.2)).map Prod.fst := by
  induction cs generalizing init with
  | nil => rw [visitsList]; simp
  | cons c rest ih =>
    rw [List.foldl_cons, ih, visitsList, List.filter_append, List.map_append,
      findAll_eq, List.append_assoc]

theorem xmlFindAll_eq (x : Xml) (fn : Node → Node → Bool) :
    Xml.FindAll x fn
      = ((visitsList x.Nodes Node.empty).filter (fun q => fn q.1 q.2)).map Prod.fst := by
  rw [Xml.FindAll]
  simpa using xmlFindAll_aux fn x.Nodes []

theorem findLoop_eq_findSpec (fn : Node → Node → Bool) (ns : List Node) :
    Xml.findLoop fn ns = findSpec fn ns := by
  induction ns with
  | nil => rfl
  | cons node rest ih =>
    rw [Xml.findLoop, findSpec, List.findSome?_cons]
    cases hall : FindAll node Node.empty fn with
    | nil =>
      simp only [firstAcceptable, hall]
      simp only [List.length_nil, findSpec] at ih ⊢
      simpa using ih
    | cons m ms =>
      by_cases hclass : m.Class = ""
      · simp only [firstAcceptable, hall, hclass]
        simp only [List.length_cons, List.headD_cons, findSpec] at ih ⊢
        simpa [hclass] using ih
      · simp only [firstAcceptable, hall, hclass]
        simp [hclass]

theorem findLoop_none_class_ne (fn : Node → Node → Bool) (ns : List Node) (n : Node)
    (h : Xml.findLoop fn ns = (n, none)) : n.Class ≠ "" := by
  induction ns with
  | nil =>
    simp only [Xml.findLoop] at h
    exact absurd (congrArg Prod.snd h) (by simp)
  | cons node rest ih =>
    simp only [Xml.findLoop] at h
    split at h
    · next hcond =>
      rw [Prod.mk.injEq] at h
      obtain ⟨hn, -⟩ := h
      subst hn
      exact hcond.2
    · exact ih h

/- ---------- Parser lemmas ---------- -/

theorem expectChar_sound {c : Char} {cs r : List Char} (h : expectChar c cs = some r) :
    cs = c :: r := by
  cases cs with
  | nil => simp [expectChar] at h
  | cons x xs =>
    rw [expectChar] at h
    split at h
    · next hx => cases h; rw [hx]
    · simp at h

theorem expectChar_cons_self (c : Char) (xs : List Char) :
    expectChar c (c :: xs) = some xs := by
  simp [expectChar]

theorem takeWhile_digits_append {ds : List Char} {x : Char} (rest : List Char)
    (hd : ∀ c ∈ ds, c.isDigit = true) (hx : x.isDigit = false) :
    (ds ++ x :: rest).takeWhile Char.isDigit = ds ∧
      (ds ++ x :: rest).dropWhile Char.isDigit = x :: rest := by
  induction ds with
  | nil => simp [List.takeWhile_cons, List.dropWhile_cons, hx]
  | cons c ds' ih =>
    have hc : c.isDigit = true := hd c (by simp)
    have ih' := ih (fun c hmem => hd c (by simp [hmem]))
    simp [List.takeWhile_cons, List.dropWhile_cons, hc, ih'.1, ih'.2]

theorem takeDigits1_sound {cs ds rest : List Char}
    (h : takeDigits1 cs = some (ds, rest)) :
    ds ≠ [] ∧ (∀ c ∈ ds, c.isDigit = true) ∧ cs = ds ++ rest := by
  rw [takeDigits1] at h
  cases htw : cs.takeWhile Char.isDigit with
  | nil => rw [htw] at h; simp at h
  | cons t ts =>
    rw [htw] at h
    cases h
    refine ⟨by simp, ?_, ?_⟩
    · intro c hc
      rw [← htw] at hc
      exact List.mem_takeWhile_imp hc
    · rw [← htw]
      exact (List.takeWhile_append_dropWhile _ _).symm

theorem takeDigits1_complete {ds : List Char} {x : Char} (rest : List Char)
    (hne : ds ≠ []) (hd : ∀ c ∈ ds, c.isDigit = true) (hx : x.isDigit = false) :
    takeDigits1 (ds ++ x :: rest) = some (ds, x :: rest) := by
  have hw := takeWhile_digits_append rest hd hx
  rw [takeDigits1, hw.1, hw.2]
  cases ds with
  | nil => exact absurd rfl hne
  | cons c ds' => rfl

theorem matchBoundsAt_nil : matchBoundsAt [] = none := rfl

theorem matchBoundsAt_sound {cs d1 d2 d3 d4 : List Char}
    (h : matchBoundsAt cs = some (d1, d2, d3, d4)) :
    IsDigitRun d1 ∧ IsDigitRun d2 ∧ IsDigitRun d3 ∧ IsDigitRun d4 ∧
      ∃ rest, cs = boundsShape d1 d2 d3 d4 rest := by
  unfold matchBoundsAt at h
  cases hE1 : expectChar '[' cs with
  | none => rw [hE1] at h; simp at h
  | some r1 =>
  rw [hE1] at h
  simp only [Option.bind_eq_bind, Option.some_bind] at h
  cases hT1 : takeDigits1 r1 with
  | none => rw [hT1] at h; simp at h
  | some pr1 =>
  obtain ⟨e1, r2⟩ := pr1
  rw [hT1] at h
  simp only [Option.bind_eq_bind, Option.some_bind] at h
  cases hE2 : expectChar ',' r2 with
  | none => rw [hE2] at h; simp at h
  | some r3 =>
  rw [hE2] at h
  simp only [Option.bind_eq_bind, Option.some_bind] at h
  cases hT2 : takeDigits1 r3 with
  | none => rw [hT2] at h; simp at h
  | some pr2 =>
  obtain ⟨e2, r4⟩ := pr2
  rw [hT2] at h
  simp only [Option.bind_eq_bind, Option.some_bind] at h
  cases hE3 : expectChar ']' r4 with
  | none => rw [hE3] at h; simp at h
  | some r5 =>
  rw [hE3] at h
  simp only [Option.bind_eq_bind, Option.some_bind] at h
  cases hE4 : expectChar '[' r5 with
  | none => rw [hE4] at h; simp at h
  | some r6 =>
  rw [hE4] at h
  simp only [Option.bind_eq_bind, Option.some_bind] at h
  cases hT3 : takeDigits1 r6 with
  | none => rw [hT3] at h; simp at h
  | some pr3 =>
  obtain ⟨e3, r7⟩ := pr3
  rw [hT3] at h
  simp only [Option.bind_eq_bind, Option.some_bind] at h
  cases hE5 : expectChar ',' r7 with
  | none => rw [hE5] at h; simp at h
  | some r8 =>
  rw [hE5] at h
  simp only [Option.bind_eq_bind, Option.some_bind] at h
  cases hT4 : takeDigits1 r8 with
  | none => rw [hT4] at h; simp at h
  | some pr4 =>
  obtain ⟨e4, r9⟩ := pr4
  rw [hT4] at h
  simp only [Option.bind_eq_bind, Option.some_bind] at h
  cases hE6 : expectChar ']' r9 with
  | none => rw [hE6] at h; simp at h
  | some r10 =>
  rw [hE6] at h
  simp only [Option.bind_eq_bind, Option.some_bind, Option.pure_def,
    Option.some.injEq, Prod.mk.injEq] at h
  obtain ⟨h1, h2, h3, h4⟩ := h
  subst h1; subst h2; subst h3; subst h4
  obtain ⟨hne1, hdig1, hc1⟩ := takeDigits1_sound hT1
  obtain ⟨hne2, hdig2, hc2⟩ := takeDigits1_sound hT2
  obtain ⟨hne3, hdig3, hc3⟩ := takeDigits1_sound hT3
  obtain ⟨hne4, hdig4, hc4⟩ := takeDigits1_sound hT4
  refine ⟨⟨hne1, hdig1⟩, ⟨hne2, hdig2⟩, ⟨hne3, hdig3⟩, ⟨hne4, hdig4⟩, r10, ?_⟩
  rw [expectChar_sound hE1, hc1, expectChar_sound hE2, hc2,
    expectChar_sound hE3, expectChar_sound hE4, hc3, expectChar_sound hE5,
    hc4, expectChar_sound hE6, boundsShape]

theorem matchBoundsAt_complete {d1 d2 d3 d4 : List Char} (rest : List Char)
    (h1 : IsDigitRun d1) (h2 : IsDigitRun d2) (h3 : IsDigitRun d3)
    (h4 : IsDigitRun d4) :
    matchBoundsAt (boundsShape d1 d2 d3 d4 rest) = some (d1, d2, d3, d4) := by
  unfold matchBoundsAt boundsShape
  rw [expectChar_cons_self]
  simp only [Option.bind_eq_bind, Option.some_bind]
  rw [takeDigits1_complete _ h1.1 h1.2 (by decide)]
  simp only [Option.bind_eq_bind, Option.some_bind]
  rw [expectChar_cons_self]
  simp only [Option.bind_eq_bind, Option.some_bind]
  rw [takeDigits1_complete _ h2.1 h2.2 (by decide)]
  simp only [Option.bind_eq_bind, Option.some_bind]
  rw [expectChar_cons_self]
  simp only [Option.bind_eq_bind, Option.some_bind]
  rw [expectChar_cons_self]
  simp only [Option.bind_eq_bind, Option.some_bind]
  rw [takeDigits1_complete _ h3.1 h3.2 (by decide)]
  simp only [Option.bind_eq_bind, Option.some_bind]
  rw [expectChar_cons_self]
  simp only [Option.bind_eq_bind, Option.some_bind]
  rw [takeDigits1_complete _ h4.1 h4.2 (by decide)]
  simp only [Option.bind_eq_bind, Option.some_bind]
  rw [expectChar_cons_self]
  simp only [Option.bind_eq_bind, Option.some_bind]
  rfl

theorem findBounds_of_matchAt (i : Nat) {cs : List Char}
    {g : List Char × List Char × List Char × List Char}
    (h : matchBoundsAt (cs.drop i) = some g)
    (hnone : ∀ j, j < i → matchBoundsAt (cs.drop j) = none) :
    findBoundsMatch cs = some g := by
  induction i generalizing cs with
  | zero =>
    rw [List.drop_zero] at h
    cases cs with
    | nil => rw [matchBoundsAt_nil] at h; cases h
    | cons c cs' => rw [findBoundsMatch, h]
  | succ i ih =>
    have h0 : matchBoundsAt cs = none := by
      have := hnone 0 (Nat.succ_pos i)
      rwa [List.drop_zero] at this
    cases cs with
    | nil => rw [List.drop_nil, matchBoundsAt_nil] at h; cases h
    | cons c cs' =>
      rw [findBoundsMatch, h0]
      exact ih (by rwa [List.drop_succ_cons] at h)
        (fun j hj => by
          have := hnone (j + 1) (by omega)
          rwa [List.drop_succ_cons] at this)

theorem digitChar_isDigit (r : Nat) : (digitChar r).isDigit = true := by
  unfold digitChar
  split <;> decide

theorem digitChar_toNat {r : Nat} (h : r < 10) : (digitChar r).toNat = 48 + r := by
  interval_cases r <;> decide

theorem digitsToNat_snoc (ds : List Char) (c : Char) :
    digitsToNat (ds ++ [c]) = 10 * digitsToNat ds + (c.toNat - 48) := by
  unfold digitsToNat
  rw [List.foldl_append]
  rfl

theorem toDecimalAux_spec (fuel : Nat) :
    ∀ (n : Nat) (acc : List Char), n ≤ fuel →
      ∃ ds, toDecimalAux fuel n acc = ds ++ acc ∧
        (∀ c ∈ ds, c.isDigit = true) ∧ digitsToNat ds = n ∧ (n ≠ 0 → ds ≠ []) := by
  induction fuel with
  | zero =>
    intro n acc hn
    have hz : n = 0 := by omega
    subst hz
    exact ⟨[], rfl, by simp, rfl, by simp⟩
  | succ fuel ih =>
    intro n acc hn
    by_cases hz : n = 0
    · subst hz
      exact ⟨[], by simp [toDecimalAux], by simp, rfl, by simp⟩
    · have hlt : n / 10 ≤ fuel := by
        have := Nat.div_lt_self (Nat.pos_of_ne_zero hz) (by norm_num : 1 < 10)
        omega
      obtain ⟨ds', heq, hdig, hval, -⟩ := ih (n / 10) (digitChar (n % 10) :: acc) hlt
      refine ⟨ds' ++ [digitChar (n % 10)], ?_, ?_, ?_, ?_⟩
      · rw [toDecimalAux, if_neg hz, heq, List.append_assoc, List.singleton_append]
      · intro c hc
        rcases List.mem_append.1 hc with hmem | hmem
        · exact hdig c hmem
        · simp only [List.mem_singleton] at hmem
          subst hmem
          exact digitChar_isDigit _
      · rw [digitsToNat_snoc, hval, digitChar_toNat (Nat.mod_lt n (by norm_num))]
        omega
      · intro _
        simp

theorem toDecimal_spec (n : Nat) :
    IsDigitRun (toDecimal n) ∧ digitsToNat (toDecimal n) = n := by
  unfold toDecimal
  by_cases hz : n = 0
  · subst hz
    rw [if_pos rfl]
    exact ⟨⟨by simp, by decide⟩, by decide⟩
  · rw [if_neg hz]
    obtain ⟨ds, heq, hdig, hval, hne⟩ := toDecimalAux_spec n n [] le_rfl
    rw [heq, List.append_nil]
    exact ⟨⟨hne hz, hdig⟩, hval⟩

theorem parse_fmt (a b c d : Nat) :
    ParseBounds (fmtBounds a b c d)
      = (⟨Int.ofNat (min a intMax64), Int.ofNat (min b intMax64),
          Int.ofNat (min c intMax64), Int.ofNat (min d intMax64)⟩, none) := by
  obtain ⟨hra, hva⟩ := toDecimal_spec a
  obtain ⟨hrb, hvb⟩ := toDecimal_spec b
  obtain ⟨hrc, hvc⟩ := toDecimal_spec c
  obtain ⟨hrd, hvd⟩ := toDecimal_spec d
  have hm : matchBoundsAt
      (boundsShape (toDecimal a) (toDecimal b) (toDecimal c) (toDecimal d) [])
        = some (toDecimal a, toDecimal b, toDecimal c, toDecimal d) :=
    matchBoundsAt_complete [] hra hrb hrc hrd
  have hdata : (fmtBounds a b c d).data
      = boundsShape (toDecimal a) (toDecimal b) (toDecimal c) (toDecimal d) [] := rfl
  have hf : findBoundsMatch (fmtBounds a b c d).data
      = some (toDecimal a, toDecimal b, toDecimal c, toDecimal d) := by
    rw [hdata]
    exact findBounds_of_matchAt 0 (by rw [List.drop_zero]; exact hm)
      (fun j hj => absurd hj (by omega))
  rw [ParseBounds, hf]
  simp only [atoiSat, hva, hvb, hvc, hvd]

theorem findBounds_none {cs : List Char}
    (hnone : ∀ i, matchBoundsAt (cs.drop i) = none) :
    findBoundsMatch cs = none := by
  induction cs with
  | nil => rfl
  | cons c cs' ih =>
    have h0 : matchBoundsAt (c :: cs') = none := by
      have := hnone 0
      rwa [List.drop_zero] at this
    rw [findBoundsMatch, h0]
    exact ih (fun i => by
      have := hnone (i + 1)
      rwa [List.drop_succ_cons] at this)

theorem foldl_count {α : Type} (l : List α) (init : Nat) :
    l.foldl (fun a _ => a + 1) init = init + l.length := by
  induction l generalizing init with
  | nil => simp
  | cons q rest ih => rw [List.foldl_cons, ih, List.length_cons]; omega

/- ---------- Claims ---------- -/

/-- Claim C1: Xml.Find iterates the top-level nodes in order, collects
within each subtree every node satisfying the condition in preorder
(package-level FindAll is exactly the preorder filter), accepts the
first collected node of a subtree exactly when its class name is
non-empty (skipping the whole subtree otherwise), and returns the
"not found" error when no subtree yields an acceptable match. -/
theorem find_first_subtree_selection (x : Xml) (fn : Node → Node → Bool) :
    x.Find fn = findSpec fn x.Nodes ∧
      ∀ (nd pn : Node),
        FindAll nd pn fn = ((visits nd pn).filter (fun q => fn q.1 q.2)).map Prod.fst := by
  constructor
  · rw [Xml.Find, findLoop_eq_findSpec]
  · intro nd pn
    exact findAll_eq nd pn fn

/-- Claim C2 counterexample: Xml.FindAll does return a node whose class
name is empty when such a node satisfies the search condition, so the
claimed invariant fails for the FindAll search operation. -/
theorem findAll_returns_empty_class_node :
    Xml.FindAll sentinelXml alwaysTrue = [sampleEmptyClass] ∧
      sampleEmptyClass.Class = "" := by
  constructor
  · simp [Xml.FindAll, Xml.Nodes, sentinelXml, FindAll, Walk, walkList,
      Node.Children, sampleEmptyClass, alwaysTrue]
  · rfl

/-- Claim C2 (amended): the empty-class guard holds for Xml.Find: a
node returned without error always has a non-empty class name.
Xml.FindAll is exempt: it returns every node satisfying the
condition. -/
theorem find_empty_class_guard (x : Xml) (fn : Node → Node → Bool) (n : Node)
    (h : x.Find fn = (n, none)) : n.Class ≠ "" := by
  rw [Xml.Find] at h
  exact findLoop_none_class_ne fn x.Nodes n h

/-- Claim C2 witness: a concrete run of Xml.Find that returns without
error, whose result has a non-empty class name. -/
theorem find_empty_class_guard_witness :
    Xml.Find sampleXml alwaysTrue = (sampleButton, none) ∧
      sampleButton.Class ≠ "" := by
  have hev : Xml.Find sampleXml alwaysTrue = (sampleButton, none) := by
    simp [Xml.Find, Xml.findLoop, Xml.Nodes, sampleXml, FindAll, Walk, walkList,
      Node.Children, Node.Class, sampleButton, alwaysTrue]
  exact ⟨hev, find_empty_class_guard sampleXml alwaysTrue sampleButton hev⟩

/-- Claim C3: whenever Xml.Find returns without error, the returned
node's Class field is a non-empty string. -/
theorem find_ok_class_nonempty (x : Xml) (fn : Node → Node → Bool)
    (h : (x.Find fn).2 = none) : ((x.Find fn).1).Class ≠ "" := by
  refine findLoop_none_class_ne fn x.Nodes (x.Find fn).1 ?_
  rw [Xml.Find] at h ⊢
  exact Prod.ext rfl h

/-- Claim C3 witness: a concrete error-free Xml.Find whose result has a
non-empty class name. -/
theorem find_ok_class_nonempty_witness :
    (Xml.Find sampleXml alwaysTrue).2 = none ∧
      ((Xml.Find sampleXml alwaysTrue).1).Class ≠ "" := by
  have hev : Xml.Find sampleXml alwaysTrue = (sampleButton, none) := by
    simp [Xml.Find, Xml.findLoop, Xml.Nodes, sampleXml, FindAll, Walk, walkList,
      Node.Children, Node.Class, sampleButton, alwaysTrue]
  exact ⟨by rw [hev], find_ok_class_nonempty sampleXml alwaysTrue (by rw [hev])⟩

/-- Claim C4: Xml.FindAll returns exactly the nodes satisfying the
condition, in preorder, depth-first document order across the whole
tree, and with the always-true condition it returns precisely the full
document-order node sequence. -/
theorem findAll_document_order (x : Xml) (fn : Node → Node → Bool) :
    Xml.FindAll x fn
        = ((visitsList x.Nodes Node.empty).filter (fun q => fn q.1 q.2)).map Prod.fst ∧
      Xml.FindAll x alwaysTrue = (visitsList x.Nodes Node.empty).map Prod.fst := by
  refine ⟨xmlFindAll_eq x fn, ?_⟩
  rw [xmlFindAll_eq x alwaysTrue]
  simp [alwaysTrue]

/-- Claim C5: when no visited node satisfies the condition, the
primitive Xml.FindAll returns the empty list (and no error), while the
wrapper FindNodes turns that same empty result into the "not found"
error with no nodes. -/
theorem findAll_empty_vs_findNodes (x : Xml) (fn : Node → Node → Bool)
    (h : ∀ q ∈ visitsList x.Nodes Node.empty, fn q.1 q.2 = false) :
    Xml.FindAll x fn = [] ∧ FindNodes x fn = ([], some "not found") := by
  have hempty : Xml.FindAll x fn = [] := by
    rw [xmlFindAll_eq]
    have : (visitsList x.Nodes Node.empty).filter (fun q => fn q.1 q.2) = [] := by
      rw [List.filter_eq_nil_iff]
      intro q hq
      simp [h q hq]
    rw [this, List.map_nil]
  refine ⟨hempty, ?_⟩
  rw [FindNodes]
  simp [hempty]

/-- Claim C5 witness: the empty tree with the always-true condition. -/
theorem findAll_empty_vs_findNodes_witness :
    (∀ q ∈ visitsList emptyXml.Nodes Node.empty, alwaysTrue q.1 q.2 = false) ∧
      (Xml.FindAll emptyXml alwaysTrue = [] ∧
        FindNodes emptyXml alwaysTrue = ([], some "not found")) := by
  have hv : ∀ q ∈ visitsList emptyXml.Nodes Node.empty, alwaysTrue q.1 q.2 = false := by
    intro q hq
    simp [emptyXml, Xml.Nodes, visitsList] at hq
  exact ⟨hv, findAll_empty_vs_findNodes emptyXml alwaysTrue hv⟩

/-- Claim C6: when the bounds string parses, Node.Middle is
(x1 + (x2-x1)/2, y1 + (y2-y1)/2) under truncating division; when it
does not parse, Node.Middle is (0, 0) with no error; the bounds
"[100,200][300,400]" give (200, 300) and "[0,0][1,1]" give (0, 0). -/
theorem middle_center_point :
    (∀ (n : Node) (r : Rect), ParseBounds n.Bounds = (r, none) →
        n.Middle = (r.X1 + Int.tdiv (r.X2 - r.X1) 2, r.Y1 + Int.tdiv (r.Y2 - r.Y1) 2)) ∧
      (∀ (n : Node) (r : Rect) (e : BoundsError),
        ParseBounds n.Bounds = (r, some e) → n.Middle = (0, 0)) ∧
      (∀ n : Node, n.Bounds = "[100,200][300,400]" → n.Middle = (200, 300)) ∧
      (∀ n : Node, n.Bounds = "[0,0][1,1]" → n.Middle = (0, 0)) := by
  refine ⟨?_, ?_, ?_, ?_⟩
  · intro n r h
    simp only [Node.Middle, h]
    rw [Prod.mk.injEq]
    exact ⟨Int.add_comm _ _, Int.add_comm _ _⟩
  · intro n r e h
    simp only [Node.Middle, h]
  · intro n h
    simp only [Node.Middle, h]
    decide
  · intro n h
    simp only [Node.Middle, h]
    decide

/-- Claim C6 witness: a node with bounds "[100,200][300,400]" has
center (200, 300); a node with unparsable bounds has center (0, 0). -/
theorem middle_center_point_witness :
    sampleButton.Middle = (200, 300) ∧ sampleBadBounds.Middle = (0, 0) :=
  ⟨middle_center_point.2.2.1 sampleButton rfl,
    middle_center_point.2.1 sampleBadBounds ⟨0, 0, 0, 0⟩
      (BoundsError.MalformedBounds "oops") (by decide)⟩

/-- Claim C7: for machine-range naturals, parsing the formatted string
[a,b][c,d] returns exactly (a, b, c, d); in general, ParseBounds
returns the four saturated integers of the leftmost substring matching
the bounds pattern. -/
theorem parseBounds_round_trip :
    (∀ a b c d : Nat, a ≤ intMax64 → b ≤ intMax64 → c ≤ intMax64 → d ≤ intMax64 →
        ParseBounds (fmtBounds a b c d)
          = (⟨(a : Int), (b : Int), (c : Int), (d : Int)⟩, none)) ∧
      (∀ (s : String) (i : Nat) (d1 d2 d3 d4 : List Char),
        BoundsMatchAt s.data i d1 d2 d3 d4 →
        (∀ j, j < i → ∀ e1 e2 e3 e4, ¬ BoundsMatchAt s.data j e1 e2 e3 e4) →
        ParseBounds s = (⟨atoiSat d1, atoiSat d2, atoiSat d3, atoiSat d4⟩, none)) := by
  constructor
  · intro a b c d ha hb hc hd
    rw [parse_fmt, min_eq_left ha, min_eq_left hb, min_eq_left hc, min_eq_left hd]
    rfl
  · intro s i d1 d2 d3 d4 hB hnone
    obtain ⟨h1, h2, h3, h4, rest, hshape⟩ := hB
    have hm : matchBoundsAt (s.data.drop i) = some (d1, d2, d3, d4) := by
      rw [hshape]
      exact matchBoundsAt_complete rest h1 h2 h3 h4
    have hprev : ∀ j, j < i → matchBoundsAt (s.data.drop j) = none := by
      intro j hj
      cases hmj : matchBoundsAt (s.data.drop j) with
      | none => rfl
      | some g =>
        obtain ⟨g1, g2, g3, g4⟩ := g
        obtain ⟨k1, k2, k3, k4, r, hr⟩ := matchBoundsAt_sound hmj
        exact absurd ⟨k1, k2, k3, k4, r, hr⟩ (hnone j hj g1 g2 g3 g4)
    rw [ParseBounds, findBounds_of_matchAt i hm hprev]

/-- Claim C7 witness: the formatted string of (100, 200, 300, 400) is
"[100,200][300,400]" and parses back to exactly those four integers. -/
theorem parseBounds_round_trip_witness :
    fmtBounds 100 200 300 400 = "[100,200][300,400]" ∧
      ParseBounds (fmtBounds 100 200 300 400)
        = (⟨(100 : Int), (200 : Int), (300 : Int), (400 : Int)⟩, none) :=
  ⟨by decide,
    parseBounds_round_trip.1 100 200 300 400 (by decide) (by decide)
      (by decide) (by decide)⟩

/-- Claim C8: on any input with no substring matching the bounds
pattern, ParseBounds returns the zero Rect together with a
MalformedBounds error carrying the original string; in particular on
"[1,2]", "[1,2][3]" and the empty string. -/
theorem parseBounds_malformed :
    (∀ s : String, (∀ i d1 d2 d3 d4, ¬ BoundsMatchAt s.data i d1 d2 d3 d4) →
        ParseBounds s = (⟨0, 0, 0, 0⟩, some (BoundsError.MalformedBounds s))) ∧
      ParseBounds "[1,2]" = (⟨0, 0, 0, 0⟩, some (BoundsError.MalformedBounds "[1,2]")) ∧
      ParseBounds "[1,2][3]" = (⟨0, 0, 0, 0⟩, some (BoundsError.MalformedBounds "[1,2][3]")) ∧
      ParseBounds "" = (⟨0, 0, 0, 0⟩, some (BoundsError.MalformedBounds "")) := by
  refine ⟨?_, by decide, by decide, by decide⟩
  intro s hnone
  have hall : ∀ i, matchBoundsAt (s.data.drop i) = none := by
    intro i
    cases hmi : matchBoundsAt (s.data.drop i) with
    | none => rfl
    | some g =>
      obtain ⟨g1, g2, g3, g4⟩ := g
      obtain ⟨k1, k2, k3, k4, r, hr⟩ := matchBoundsAt_sound hmi
      exact absurd ⟨k1, k2, k3, k4, r, hr⟩ (hnone i g1 g2 g3 g4)
  rw [ParseBounds, findBounds_none hall]

/-- Claim C8 witness: the empty string has no bounds-pattern match and
ParseBounds rejects it with the MalformedBounds error carrying it. -/
theorem parseBounds_malformed_witness :
    ParseBounds "" = (⟨0, 0, 0, 0⟩, some (BoundsError.MalformedBounds "")) := by
  refine parseBounds_malformed.1 "" ?_
  intro i d1 d2 d3 d4 hB
  obtain ⟨-, -, -, -, rest, heq⟩ := hB
  rw [show ("" : String).data = [] from rfl, List.drop_nil] at heq
  exact absurd heq (by simp [boundsShape])

/-- Claim C9: Walk applies the visitor to exactly the preorder,
depth-first, left-to-right visit sequence of (node, parent) pairs of
the subtree, in that order; the sequence's length is 1 plus the number
of descendants of the start node, so the visitor is called exactly that
many times. -/
theorem walk_preorder_visit_count (σ : Type) (n pn : Node)
    (fn : Node → Node → σ → σ) (s : σ) :
    Walk n pn fn s = (visits n pn).foldl (fun a q => fn q.1 q.2 a) s ∧
      (visits n pn).length = 1 + nodeCountList n.Children ∧
      Walk n pn (fun _ _ k => k + 1) 0 = 1 + nodeCountList n.Children := by
  have hlen : (visits n pn).length = 1 + nodeCountList n.Children := by
    rw [visits_length, nodeCount]
  refine ⟨walk_eq_foldl n pn fn s, hlen, ?_⟩
  rw [walk_eq_foldl, ← hlen]
  simpa using foldl_count (visits n pn) 0

/-- Claim C10: ParseBounds succeeds on the formatted string of any four
naturals no matter their magnitude; each component is the saturated
machine-integer value of its digits, as with the conversion errors of
strconv.Atoi discarded; a component beyond the machine range comes back
as the maximum machine integer. -/
theorem parseBounds_saturates :
    (∀ a b c d : Nat,
        ParseBounds (fmtBounds a b c d)
          = (⟨Int.ofNat (min a intMax64), Int.ofNat (min b intMax64),
              Int.ofNat (min c intMax64), Int.ofNat (min d intMax64)⟩, none)) ∧
      ParseBounds (fmtBounds (2 ^ 64) 0 0 0)
        = (⟨Int.ofNat intMax64, 0, 0, 0⟩, none) := by
  refine ⟨parse_fmt, ?_⟩
  rw [parse_fmt]
  decide

end Uixml
